import Mathlib

/-!
Verification of the buy-and-hold-with-advance/decline-line strategy notebook.

The market is a time-major table: `close : List (List (Option ℚ))` (a missing
close is `none`, modelling NaN) and `is_liquid : List (List Bool)`.  Values are
rationals; NaN-valued cells are modelled by `Option`, with `none` for NaN.

Definitions translated from the notebook source (`src/strategy.ipynb`):
mask (`data.sel(field="is_liquid")`, `output.where(positive_trend)`), scaling
(`output / output.sum("asset")`), shift/difference (`adl_ma.shift(time=13)`,
`adl_ma_ch > 0`) and the pipeline composition.  The quantnet library functions
the notebook calls (`qnta.ad_line`, `qnta.ema`, `qne.drop_bad_days`,
`qnstats.calc_stat`) are not part of the repository's sources; they are
modelled from the specification, as their doc comments indicate.
-/

namespace BnhAdl

/-- Sum of a row that skips missing values, as xarray's `sum` (skipna=True)
does in `output.sum("asset")`: NaN cells are ignored and an all-NaN row sums
to 0. -/
def nanSum (row : List (Option ℚ)) : ℚ := (row.filterMap id).sum

/-- One cell of `output / output.sum("asset")`: NaN numerators stay NaN, and a
zero daily sum gives NaN (in the source `0/0 = NaN`; a nonzero numerator over
a zero sum cannot arise because candidates are nonnegative and the sum ranges
over them). -/
def scaleCell (s : ℚ) (x : Option ℚ) : Option ℚ :=
  match x with
  | none => none
  | some v => if s = 0 then none else some (v / s)

/-- The day-wise scaling step `output = output / output.sum("asset")`. -/
def scaleRow (row : List (Option ℚ)) : List (Option ℚ) :=
  row.map (scaleCell (nanSum row))

/-- The masking step: `output = data.sel(field="is_liquid")` followed by
`output = output.where(positive_trend)`.  When the day's trend flag is false,
`where` replaces every cell of the day by NaN; otherwise the cell is the
0/1 liquidity value.  (For the plain buy-and-hold variant the trend flag is
identically true.) -/
def candRow (liqRow : List Bool) (trend : Bool) : List (Option ℚ) :=
  liqRow.map (fun l => if trend then some (if l then (1 : ℚ) else 0) else none)

/-- A weight row with no NaN cell. -/
def isGoodRow (r : List (Option ℚ)) : Bool := r.all (fun x => x.isSome)

/-- Forget the `Option` wrapper of a row with no NaN cells. -/
def stripRow (r : List (Option ℚ)) : List ℚ := r.map (fun x => x.getD 0)

/-- Modelled from the spec: `qne.drop_bad_days` (not in the repository's
sources).  A day is bad when its weight row has undefined (NaN) entries; bad
days are corrected by carrying forward the previous valid day's weight
vector, or zero if no valid day exists yet (`prev` starts as the all-zero
row). -/
def dropBadDays (prev : List ℚ) : List (List (Option ℚ)) → List (List ℚ)
  | [] => []
  | r :: rs =>
    (if isGoodRow r then stripRow r else prev)
      :: dropBadDays (if isGoodRow r then stripRow r else prev) rs

/-- The candidate weight row of day `t` after masking and scaling, before the
bad-day correction. -/
def rawRow (trend : ℕ → Bool) (liq : List (List Bool)) (t : ℕ) : List (Option ℚ) :=
  scaleRow (candRow (liq.getD t []) (trend t))

/-- All masked-and-scaled rows, one per day of the liquidity table. -/
def rawRows (trend : ℕ → Bool) (liq : List (List Bool)) : List (List (Option ℚ)) :=
  (List.range liq.length).map (rawRow trend liq)

/-- The whole weight-normalization pipeline of the notebook: liquidity mask,
positive-trend mask, division by the daily sum, bad-day correction. -/
def normalizeWeights (trend : ℕ → Bool) (liq : List (List Bool)) : List (List ℚ) :=
  dropBadDays (List.replicate (liq.headD []).length 0) (rawRows trend liq)

/-! ### Signal builder -/

/-- An asset advanced when both closes are present and today's strictly
exceeds yesterday's; a missing close on either day excludes the asset. -/
def isAdv (p c : Option ℚ) : Bool :=
  match p, c with
  | some p0, some c0 => decide (p0 < c0)
  | _, _ => false

/-- An asset declined when both closes are present and today's is strictly
below yesterday's; a missing close on either day excludes the asset. -/
def isDec (p c : Option ℚ) : Bool :=
  match p, c with
  | some p0, some c0 => decide (c0 < p0)
  | _, _ => false

/-- Number of advancing assets between two consecutive close rows. -/
def advCount (prev curr : List (Option ℚ)) : ℕ :=
  ((prev.zip curr).filter (fun pc => isAdv pc.1 pc.2)).length

/-- Number of declining assets between two consecutive close rows. -/
def decCount (prev curr : List (Option ℚ)) : ℕ :=
  ((prev.zip curr).filter (fun pc => isDec pc.1 pc.2)).length

/-- Close row of day `t` (empty past the end of the data). -/
def closeAt (close : List (List (Option ℚ))) (t : ℕ) : List (Option ℚ) :=
  close.getD t []

/-- Modelled from the spec: `qnta.ad_line` (not in the repository's sources).
Advance/decline line: running sum starting at 0, each day adding the count of
advancing assets minus the count of declining assets versus the previous
day. -/
def adlF (close : List (List (Option ℚ))) : ℕ → ℚ
  | 0 => 0
  | t + 1 =>
    adlF close t + (advCount (closeAt close t) (closeAt close (t + 1)) : ℚ)
      - (decCount (closeAt close t) (closeAt close (t + 1)) : ℚ)

/-- Modelled from the spec: `qnta.ema` (not in the repository's sources).
Exponential moving average, `ema[0] = x[0]`,
`ema[t] = α·x[t] + (1-α)·ema[t-1]`. -/
def emaF (α : ℚ) (x : ℕ → ℚ) : ℕ → ℚ
  | 0 => x 0
  | t + 1 => α * x (t + 1) + (1 - α) * emaF α x t

/-- EMA parameterized by span, `α = 2/(span+1)`. -/
def emaSpan (span : ℕ) (x : ℕ → ℚ) : ℕ → ℚ :=
  emaF (2 / ((span : ℚ) + 1)) x

/-- `adl_ma_ch = adl_ma - adl_ma.shift(time=13)`: the shifted series has NaN
in its first `lag` slots, and subtraction propagates NaN, so the difference is
undefined for `t < lag`. -/
def changeF (e : ℕ → ℚ) (lag : ℕ) (t : ℕ) : Option ℚ :=
  if t < lag then none else some (e t - e (t - lag))

/-- `positive_trend = adl_ma_ch > 0`: a NaN comparison is false, so undefined
days get a false flag. -/
def posTrendF (ch : ℕ → Option ℚ) (t : ℕ) : Bool :=
  match ch t with
  | none => false
  | some v => decide (0 < v)

/-- The notebook's trend flag computed from the close table. -/
def pipelineTrend (close : List (List (Option ℚ))) : ℕ → Bool :=
  posTrendF (changeF (emaSpan 110 (adlF close)) 13)

/-- The notebook's final weight matrix: trend flag from closes, then the
normalization pipeline. -/
def pipelineWeights (close : List (List (Option ℚ))) (liq : List (List Bool)) :
    List (List ℚ) :=
  normalizeWeights (pipelineTrend close) liq

/-! ### Performance engine (modelled from the spec: `qnstats.calc_stat` is
not in the repository's sources) -/

/-- Weight of asset `a` on day `t` (0 outside the table). -/
def getW (w : List (List ℚ)) (t a : ℕ) : ℚ := (w.getD t []).getD a 0

/-- Close of asset `a` on day `t` (missing outside the table). -/
def getClose (close : List (List (Option ℚ))) (t a : ℕ) : Option ℚ :=
  (close.getD t []).getD a none

/-- Modelled from the spec: one asset's contribution
`weight[t-1,a]·(close[t,a]/close[t-1,a] - 1)` to a day's relative return; the
spec defines the formula only for present closes, so absent (or zero,
excluded by the MarketFrame invariant `close > 0`) closes contribute 0. -/
def cellRet (wv : ℚ) (c0 c1 : Option ℚ) : ℚ :=
  match c0, c1 with
  | some p0, some p1 => if p0 = 0 then 0 else wv * (p1 / p0 - 1)
  | _, _ => 0

/-- Modelled from the spec: `relative_return[t]` uses the previous day's
weights; the first day's return is 0 by definition. -/
def relRet (close : List (List (Option ℚ))) (w : List (List ℚ)) (A : ℕ) : ℕ → ℚ
  | 0 => 0
  | t + 1 =>
    ((List.range A).map
      (fun a => cellRet (getW w t a) (getClose close t a) (getClose close (t + 1) a))).sum

/-- Modelled from the spec: `equity[0] = 1`,
`equity[t] = equity[t-1]·(1 + relative_return[t])`. -/
def equity (rr : ℕ → ℚ) : ℕ → ℚ
  | 0 => 1
  | t + 1 => equity rr t * (1 + rr (t + 1))

/-- Running maximum of a series over days `0..t`. -/
def runMax (e : ℕ → ℚ) : ℕ → ℚ
  | 0 => e 0
  | t + 1 => max (runMax e t) (e (t + 1))

/-- Modelled from the spec: `underwater[t] = equity[t]/max(equity[0..t]) - 1`. -/
def underwater (rr : ℕ → ℚ) (t : ℕ) : ℚ :=
  equity rr t / runMax (equity rr) t - 1

/-- Running minimum of a series over days `0..t`. -/
def minSeries (u : ℕ → ℚ) : ℕ → ℚ
  | 0 => u 0
  | t + 1 => min (minSeries u t) (u (t + 1))

/-- Modelled from the spec: `max_drawdown = min(underwater)` over the whole
run (days `0..n`). -/
def maxDrawdown (rr : ℕ → ℚ) (n : ℕ) : ℚ := minSeries (underwater rr) n

/-- The trailing window of `w` values of a series ending at day `t`. -/
def windowVals (x : ℕ → ℚ) (w t : ℕ) : List ℚ :=
  (List.range w).map (fun i => x (t - i))

/-- Arithmetic mean of a list of rationals. -/
def meanFn (xs : List ℚ) : ℚ := xs.sum / (xs.length : ℚ)

/-- Sample variance of a list of rationals.  The rolling `volatility` field is
its square root; the square root is irrational, so the variance stands in for
it here — it is zero, and defined, exactly when the standard deviation is. -/
def varFn (xs : List ℚ) : ℚ :=
  ((xs.map (fun v => (v - meanFn xs) ^ 2)).sum) / ((xs.length : ℚ) - 1)

/-- Modelled from the spec: a rolling field is undefined (absent) until the
window is full — day `t` has `t+1` days of history — and afterwards is the
statistic of the trailing window. -/
def rollingField (f : List ℚ → ℚ) (w : ℕ) (x : ℕ → ℚ) (t : ℕ) : Option ℚ :=
  if t + 1 < w then none else some (f (windowVals x w t))

/-- Rolling mean of relative returns, window 756 trading days (3 years). -/
def meanReturn (rr : ℕ → ℚ) : ℕ → Option ℚ := rollingField meanFn 756 rr

/-- Rolling volatility (as sample variance, see `varFn`), window 756. -/
def volatilityF (rr : ℕ → ℚ) : ℕ → Option ℚ := rollingField varFn 756 rr

/-- Rolling Sharpe quotient: mean over volatility, undefined before the
window is full or when the volatility is zero. -/
def sharpeF (rr : ℕ → ℚ) (t : ℕ) : Option ℚ :=
  match meanReturn rr t, volatilityF rr t with
  | some m, some v => if v = 0 then none else some (m / v)
  | _, _ => none

/-- Daily gross turnover `Σ_a |weight[t,a] - weight[t-1,a]|` (day 0 compares
the first row with itself, giving 0). -/
def dayTurnover (w : List (List ℚ)) (A : ℕ) (t : ℕ) : ℚ :=
  ((List.range A).map (fun a => |getW w t a - getW w (t - 1) a|)).sum

/-- Rolling average of the daily turnover, window 756. -/
def avgTurnover (w : List (List ℚ)) (A : ℕ) : ℕ → Option ℚ :=
  rollingField meanFn 756 (dayTurnover w A)

/-- Gross exposure of a day: the sum of absolute weights. -/
def absSum (row : List ℚ) : ℚ := (row.map (fun x => |x|)).sum

/-- The 0/1 candidate values a liquidity row contributes on a
positive-trend day. -/
def liqVals (lr : List Bool) : List ℚ := lr.map (fun l => if l then (1 : ℚ) else 0)

/-- Modelled from the spec: `bias[t]` is long-minus-short over gross
exposure, undefined on days with zero gross exposure. -/
def bias (row : List ℚ) : Option ℚ :=
  let denom := (row.map (fun x => |x|)).sum
  if denom = 0 then none
  else
    some (((row.map (fun x => max x 0)).sum - (row.map (fun x => max (-x) 0)).sum) / denom)

/-- A concrete 16-day, one-asset market used to exercise the pipeline: the
close strictly rises every day (so the advance/decline line rises and the
trend flag is positive once defined). -/
def cexClose : List (List (Option ℚ)) :=
  (List.range 16).map (fun (t : ℕ) => [some ((t : ℚ) + 1)])

/-- Liquidity for the concrete market: liquid on days 0–14, illiquid on the
final day 15. -/
def cexLiq : List (List Bool) :=
  (List.range 16).map (fun t => [decide (t < 15)])

/-! ### Helper lemmas: scaling -/

theorem sum_map_div (l : List ℚ) (s : ℚ) :
    (l.map (fun x => x / s)).sum = l.sum / s := by
  induction l with
  | nil => simp
  | cons a l ih => simp [ih, add_div]

theorem filterMap_id_map_optMap (f : ℚ → ℚ) (l : List (Option ℚ)) :
    (l.map (Option.map f)).filterMap id = (l.filterMap id).map f := by
  induction l with
  | nil => rfl
  | cons a l ih => cases a <;> simp [ih]

theorem filterMap_id_map_some (l : List ℚ) :
    (l.map some).filterMap id = l := by
  induction l with
  | nil => rfl
  | cons a l ih => simp [ih]

theorem scaleCell_of_ne (s : ℚ) (hs : s ≠ 0) (x : Option ℚ) :
    scaleCell s x = Option.map (fun v => v / s) x := by
  cases x <;> simp [scaleCell, hs]

theorem scaleCell_zero (x : Option ℚ) : scaleCell 0 x = none := by
  cases x <;> simp [scaleCell]

theorem nanSum_map_some (l : List ℚ) : nanSum (l.map some) = l.sum := by
  simp [nanSum, filterMap_id_map_some]

theorem nanSum_scaleRow (row : List (Option ℚ)) (hs : nanSum row ≠ 0) :
    nanSum (scaleRow row) = 1 := by
  have hrw : scaleRow row = row.map (Option.map (fun v => v / nanSum row)) := by
    unfold scaleRow
    exact List.map_congr_left (fun x _ => scaleCell_of_ne _ hs x)
  rw [hrw]
  unfold nanSum
  rw [filterMap_id_map_optMap, sum_map_div]
  exact div_self hs

/-! ### Helper lemmas: bad-day correction -/

theorem dropBadDays_nil (prev : List ℚ) : dropBadDays prev [] = [] := rfl

theorem dropBadDays_cons (prev : List ℚ) (r : List (Option ℚ))
    (rs : List (List (Option ℚ))) :
    dropBadDays prev (r :: rs)
      = (if isGoodRow r then stripRow r else prev)
          :: dropBadDays (if isGoodRow r then stripRow r else prev) rs := rfl

theorem dropBadDays_length (prev : List ℚ) (rows : List (List (Option ℚ))) :
    (dropBadDays prev rows).length = rows.length := by
  induction rows generalizing prev with
  | nil => rfl
  | cons r rs ih => simp [dropBadDays_cons, ih]

theorem dropBadDays_forall {P : List ℚ → Prop} (prev : List ℚ)
    (rows : List (List (Option ℚ))) (hprev : P prev)
    (hrows : ∀ r ∈ rows, isGoodRow r = true → P (stripRow r)) :
    ∀ r' ∈ dropBadDays prev rows, P r' := by
  induction rows generalizing prev with
  | nil => intro r' hr'; simp [dropBadDays_nil] at hr'
  | cons r rs ih =>
    intro r' hr'
    rw [dropBadDays_cons] at hr'
    have hhead : P (if isGoodRow r then stripRow r else prev) := by
      by_cases hg : isGoodRow r
      · simpa [hg] using hrows r (List.mem_cons_self r rs) hg
      · simpa [hg] using hprev
    rcases List.mem_cons.mp hr' with h | h
    · exact h ▸ hhead
    · exact ih _ hhead (fun q hq => hrows q (List.mem_cons_of_mem _ hq)) r' h

theorem dropBadDays_getD_good (rows : List (List (Option ℚ))) (prev : List ℚ)
    (t : ℕ) (ht : t < rows.length) (hg : isGoodRow (rows.getD t []) = true) :
    (dropBadDays prev rows).getD t [] = stripRow (rows.getD t []) := by
  induction rows generalizing prev t with
  | nil => simp at ht
  | cons r rs ih =>
    cases t with
    | zero =>
      have hg0 : isGoodRow r = true := by simpa using hg
      simp [dropBadDays_cons, hg0]
    | succ t =>
      have ht' : t < rs.length := by simpa using ht
      have hg' : isGoodRow (rs.getD t []) = true := by simpa using hg
      simpa [dropBadDays_cons] using ih _ t ht' hg'

theorem dropBadDays_getD_bad (rows : List (List (Option ℚ))) (prev : List ℚ)
    (t : ℕ) (ht : t + 1 < rows.length)
    (hb : isGoodRow (rows.getD (t + 1) []) = false) :
    (dropBadDays prev rows).getD (t + 1) []
      = (dropBadDays prev rows).getD t [] := by
  induction rows generalizing prev t with
  | nil => simp at ht
  | cons r rs ih =>
    cases t with
    | zero =>
      cases rs with
      | nil => simp at ht
      | cons r2 rs2 =>
        have hb2 : isGoodRow r2 = false := by simpa using hb
        simp [dropBadDays_cons, hb2]
    | succ t =>
      have ht' : t + 1 < rs.length := by simpa using ht
      have hb' : isGoodRow (rs.getD (t + 1) []) = false := by simpa using hb
      simpa [dropBadDays_cons] using ih _ t ht' hb'

theorem dropBadDays_getD_allbad (rows : List (List (Option ℚ))) (prev : List ℚ)
    (t : ℕ) (ht : t < rows.length)
    (hb : ∀ s, s ≤ t → isGoodRow (rows.getD s []) = false) :
    (dropBadDays prev rows).getD t [] = prev := by
  induction rows generalizing prev t with
  | nil => simp at ht
  | cons r rs ih =>
    have h0 : isGoodRow r = false := by simpa using hb 0 (Nat.zero_le _)
    cases t with
    | zero => simp [dropBadDays_cons, h0]
    | succ t =>
      have ht' : t < rs.length := by simpa using ht
      have hb' : ∀ s, s ≤ t → isGoodRow (rs.getD s []) = false := by
        intro s hs
        simpa using hb (s + 1) (Nat.succ_le_succ hs)
      simpa [dropBadDays_cons, h0] using ih _ t ht' hb'

theorem rawRows_getD (trend : ℕ → Bool) (liq : List (List Bool)) (t : ℕ)
    (ht : t < liq.length) :
    (rawRows trend liq).getD t [] = rawRow trend liq t := by
  simp [rawRows, List.getD_eq_getElem?_getD, List.getElem?_map,
    List.getElem?_range, ht]

theorem rawRows_length (trend : ℕ → Bool) (liq : List (List Bool)) :
    (rawRows trend liq).length = liq.length := by
  simp [rawRows]

/-! ### Helper lemmas: structure of masked-and-scaled rows -/

theorem scaleCell_none (s : ℚ) : scaleCell s none = none := rfl

theorem candRow_true (lr : List Bool) :
    candRow lr true = (liqVals lr).map some := by
  simp [candRow, liqVals, List.map_map, Function.comp]

theorem nanSum_candRow_true (lr : List Bool) :
    nanSum (candRow lr true) = (liqVals lr).sum := by
  rw [candRow_true, nanSum_map_some]

theorem liqVals_nonneg (lr : List Bool) : ∀ v ∈ liqVals lr, 0 ≤ v := by
  intro v hv
  rcases List.mem_map.mp hv with ⟨l, _, rfl⟩
  cases l <;> norm_num

theorem good_rawRow_struct (trend : ℕ → Bool) (liq : List (List Bool)) (t : ℕ)
    (hg : isGoodRow (rawRow trend liq t) = true) :
    liq.getD t [] = [] ∨
      (trend t = true ∧ (liqVals (liq.getD t [])).sum ≠ 0) := by
  cases hlr : liq.getD t [] with
  | nil => exact Or.inl rfl
  | cons l0 lr2 =>
    right
    cases hb : trend t with
    | false =>
      exfalso
      rw [rawRow, hlr, hb] at hg
      simp [candRow, scaleRow, scaleCell_none, isGoodRow] at hg
    | true =>
      refine ⟨rfl, fun hs => ?_⟩
      rw [rawRow, hlr, hb] at hg
      have hns : nanSum (candRow (l0 :: lr2) true) = 0 := by
        rw [nanSum_candRow_true]
        exact hs
      rw [scaleRow, hns] at hg
      simp [candRow, scaleCell_zero, isGoodRow] at hg

theorem stripRow_scaleRow_true (lr : List Bool) (hs : (liqVals lr).sum ≠ 0) :
    stripRow (scaleRow (candRow lr true))
      = (liqVals lr).map (fun v => v / (liqVals lr).sum) := by
  unfold scaleRow stripRow
  rw [nanSum_candRow_true, candRow_true, List.map_map, List.map_map]
  refine List.map_congr_left ?_
  intro v _
  simp [Function.comp, scaleCell, hs]

theorem stripRow_rawRow_true (trend : ℕ → Bool) (liq : List (List Bool)) (t : ℕ)
    (hb : trend t = true) (hs : (liqVals (liq.getD t [])).sum ≠ 0) :
    stripRow (rawRow trend liq t)
      = (liqVals (liq.getD t [])).map
          (fun v => v / (liqVals (liq.getD t [])).sum) := by
  rw [rawRow, hb]
  exact stripRow_scaleRow_true _ hs

theorem stripRow_rawRow_good_prop (trend : ℕ → Bool) (liq : List (List Bool))
    (t : ℕ) (hg : isGoodRow (rawRow trend liq t) = true) :
    (∀ x ∈ stripRow (rawRow trend liq t), 0 ≤ x ∧ x ≤ 1) ∧
      ((stripRow (rawRow trend liq t)).sum = 1 ∨
        ∀ x ∈ stripRow (rawRow trend liq t), x = 0) := by
  rcases good_rawRow_struct trend liq t hg with hnil | ⟨hb, hs⟩
  · have hempty : stripRow (rawRow trend liq t) = [] := by
      rw [rawRow, hnil]
      rfl
    rw [hempty]
    exact ⟨by simp, Or.inr (by simp)⟩
  · rw [stripRow_rawRow_true trend liq t hb hs]
    have hnn : ∀ v ∈ liqVals (liq.getD t []), 0 ≤ v := liqVals_nonneg _
    have hspos : 0 < (liqVals (liq.getD t [])).sum :=
      lt_of_le_of_ne (List.sum_nonneg hnn) (Ne.symm hs)
    constructor
    · intro x hx
      rcases List.mem_map.mp hx with ⟨v, hv, rfl⟩
      exact ⟨div_nonneg (hnn v hv) hspos.le,
        (div_le_one hspos).mpr (List.single_le_sum hnn v hv)⟩
    · left
      rw [sum_map_div]
      exact div_self hs

/-! ### Helper lemmas: the normalized weight matrix -/

theorem normalizeWeights_length (trend : ℕ → Bool) (liq : List (List Bool)) :
    (normalizeWeights trend liq).length = liq.length := by
  rw [normalizeWeights, dropBadDays_length, rawRows_length]

theorem normalizeWeights_getD_good (trend : ℕ → Bool) (liq : List (List Bool))
    (t : ℕ) (ht : t < liq.length)
    (hg : isGoodRow (rawRow trend liq t) = true) :
    (normalizeWeights trend liq).getD t [] = stripRow (rawRow trend liq t) := by
  have hlen : t < (rawRows trend liq).length := by rwa [rawRows_length]
  rw [normalizeWeights,
    dropBadDays_getD_good _ _ t hlen (by rwa [rawRows_getD trend liq t ht]),
    rawRows_getD trend liq t ht]

theorem normalizeWeights_getD_bad (trend : ℕ → Bool) (liq : List (List Bool))
    (t : ℕ) (ht : t + 1 < liq.length)
    (hb : isGoodRow (rawRow trend liq (t + 1)) = false) :
    (normalizeWeights trend liq).getD (t + 1) []
      = (normalizeWeights trend liq).getD t [] := by
  have hlen : t + 1 < (rawRows trend liq).length := by rwa [rawRows_length]
  rw [normalizeWeights]
  exact dropBadDays_getD_bad _ _ t hlen
    (by rwa [rawRows_getD trend liq (t + 1) ht])

theorem normalizeWeights_getD_allbad (trend : ℕ → Bool) (liq : List (List Bool))
    (t : ℕ) (ht : t < liq.length)
    (hb : ∀ s, s ≤ t → isGoodRow (rawRow trend liq s) = false) :
    (normalizeWeights trend liq).getD t []
      = List.replicate (liq.headD []).length 0 := by
  have hlen : t < (rawRows trend liq).length := by rwa [rawRows_length]
  rw [normalizeWeights]
  refine dropBadDays_getD_allbad _ _ t hlen ?_
  intro s hs
  rw [rawRows_getD trend liq s (lt_of_le_of_lt hs ht)]
  exact hb s hs

theorem normalizeWeights_forall {P : List ℚ → Prop} (trend : ℕ → Bool)
    (liq : List (List Bool)) (hzero : P (List.replicate (liq.headD []).length 0))
    (hgood : ∀ t, isGoodRow (rawRow trend liq t) = true
      → P (stripRow (rawRow trend liq t))) :
    ∀ row ∈ normalizeWeights trend liq, P row := by
  rw [normalizeWeights]
  refine dropBadDays_forall _ _ hzero ?_
  intro r hr hgr
  rcases List.mem_map.mp hr with ⟨t, _, rfl⟩
  exact hgood t hgr

theorem getD_false_elem (l : List Bool) (a : ℕ) (h : l.getD a true = false) :
    l[a]? = some false := by
  rw [List.getD_eq_getElem?_getD] at h
  cases hx : l[a]? with
  | none => rw [hx] at h; simp at h
  | some b =>
    rw [hx] at h
    simp only [Option.getD_some] at h
    rw [h]

theorem absSum_of_nonneg (row : List ℚ) (h : ∀ x ∈ row, 0 ≤ x) :
    absSum row = row.sum := by
  unfold absSum
  rw [List.map_congr_left (fun x hx => abs_of_nonneg (h x hx))]
  simp

theorem absSum_of_all_zero (row : List ℚ) (h : ∀ x ∈ row, x = 0) :
    absSum row = 0 := by
  refine List.sum_eq_zero ?_
  intro v hv
  rcases List.mem_map.mp hv with ⟨x, hx, rfl⟩
  rw [h x hx, abs_zero]

theorem bias_of_nonneg (row : List ℚ) (hnn : ∀ x ∈ row, 0 ≤ x)
    (hpos : 0 < row.sum) : bias row = some 1 := by
  have h1 : (row.map (fun x => max x 0)).sum = row.sum := by
    rw [List.map_congr_left (fun x hx => max_eq_left (hnn x hx))]
    simp
  have h2 : (row.map (fun x => max (-x) 0)).sum = 0 := by
    refine List.sum_eq_zero ?_
    intro v hv
    rcases List.mem_map.mp hv with ⟨x, hx, rfl⟩
    exact max_eq_right (neg_nonpos.mpr (hnn x hx))
  have h3 : (row.map (fun x => |x|)).sum = row.sum := absSum_of_nonneg row hnn
  simp only [bias, h1, h2, h3]
  rw [if_neg (ne_of_gt hpos), sub_zero, div_self (ne_of_gt hpos)]

theorem rawRow_allIlliquid_bad (trend : ℕ → Bool) (liq : List (List Bool))
    (u : ℕ) (hne : liq.getD u [] ≠ [])
    (hall : ∀ b ∈ liq.getD u [], b = false) :
    isGoodRow (rawRow trend liq u) = false := by
  cases hx : isGoodRow (rawRow trend liq u) with
  | false => rfl
  | true =>
    exfalso
    rcases good_rawRow_struct trend liq u hx with hnil | ⟨_, hs⟩
    · exact hne hnil
    · apply hs
      refine List.sum_eq_zero ?_
      intro v hv
      rcases List.mem_map.mp hv with ⟨l, hl, rfl⟩
      rw [hall l hl]
      rfl

/-! ### Claims about the weight normalizer -/

/-- Claim C1 (amended): every day of the normalized weight matrix satisfies
the leverage bound — the sum of absolute weights is at most 1, with equality
unless the day is flat (all weights 0) — and on every day whose
masked-and-scaled row is defined (not repaired by the bad-day carry-forward)
an asset with `is_liquid = 0` has weight exactly 0.  On carried-forward days
the previous valid day's weights may remain on currently-illiquid assets
(see the counterexample). -/
theorem c1_leverage_and_liquidity (trend : ℕ → Bool) (liq : List (List Bool))
    (t a : ℕ) :
    (∀ row ∈ normalizeWeights trend liq,
        absSum row ≤ 1 ∧ (absSum row = 1 ∨ ∀ x ∈ row, x = 0)) ∧
    (t < liq.length →
      isGoodRow (rawRow trend liq t) = true →
      (liq.getD t []).getD a true = false →
      getW (normalizeWeights trend liq) t a = 0) := by
  constructor
  · refine normalizeWeights_forall trend liq ?_ ?_
    · have hz : ∀ x ∈ List.replicate (liq.headD []).length (0 : ℚ), x = 0 :=
        fun x hx => List.eq_of_mem_replicate hx
      have ha : absSum (List.replicate (liq.headD []).length (0 : ℚ)) = 0 :=
        absSum_of_all_zero _ hz
      exact ⟨by rw [ha]; norm_num, Or.inr hz⟩
    · intro u hg
      obtain ⟨hbd, hsum⟩ := stripRow_rawRow_good_prop trend liq u hg
      have hnn : ∀ x ∈ stripRow (rawRow trend liq u), 0 ≤ x :=
        fun x hx => (hbd x hx).1
      have ha : absSum (stripRow (rawRow trend liq u))
          = (stripRow (rawRow trend liq u)).sum := absSum_of_nonneg _ hnn
      rcases hsum with h1 | h0
      · exact ⟨by rw [ha, h1], Or.inl (by rw [ha, h1])⟩
      · have ha0 : absSum (stripRow (rawRow trend liq u)) = 0 :=
          absSum_of_all_zero _ h0
        exact ⟨by rw [ha0]; norm_num, Or.inr h0⟩
  · intro ht hgood hilq
    rcases good_rawRow_struct trend liq t hgood with hnil | ⟨hb, hs⟩
    · rw [hnil, List.getD_eq_getElem?_getD] at hilq
      simp at hilq
    · unfold getW
      rw [normalizeWeights_getD_good trend liq t ht hgood,
        stripRow_rawRow_true trend liq t hb hs,
        List.getD_eq_getElem?_getD, List.getElem?_map]
      have hel : (liq.getD t [])[a]? = some false := getD_false_elem _ a hilq
      rw [show liqVals (liq.getD t []) = (liq.getD t []).map
            (fun l => if l then (1 : ℚ) else 0) from rfl,
        List.getElem?_map, hel]
      simp

/-- Claim C2 (amended): in the scaling step, for each day with candidate
weights summing to a strictly positive value, each candidate cell is divided
by the daily sum, the day's (NaN-skipping) weight sum becomes exactly 1, and
no weight is negative.  When the sum is 0 every cell of the scaled row is
undefined (NaN) — not 0; those days are repaired later by the bad-day
correction. -/
theorem c2_scaling_step (row : List (Option ℚ))
    (hnn : ∀ x ∈ row, ∀ v : ℚ, x = some v → 0 ≤ v) :
    (0 < nanSum row →
      scaleRow row = row.map (Option.map (fun v => v / nanSum row)) ∧
      nanSum (scaleRow row) = 1 ∧
      ∀ x ∈ scaleRow row, ∀ v : ℚ, x = some v → 0 ≤ v) ∧
    (nanSum row = 0 → ∀ x ∈ scaleRow row, x = none) := by
  constructor
  · intro hpos
    have hs : nanSum row ≠ 0 := ne_of_gt hpos
    refine ⟨List.map_congr_left (fun x _ => scaleCell_of_ne _ hs x),
      nanSum_scaleRow row hs, ?_⟩
    intro x hx v hv
    rcases List.mem_map.mp hx with ⟨y, hy, rfl⟩
    cases y with
    | none => rw [scaleCell_none] at hv; exact absurd hv (by simp)
    | some u =>
      rw [scaleCell_of_ne _ hs] at hv
      have hv' : u / nanSum row = v := by simpa using hv
      rw [← hv']
      exact div_nonneg (hnn _ hy u rfl) hpos.le
  · intro hz
    intro x hx
    rcases List.mem_map.mp hx with ⟨y, hy, rfl⟩
    rw [hz, scaleCell_zero]

/-- Claim C2 counterexample: a day whose candidate-weight sum is 0 (here one
illiquid asset on a positive-trend day) gets an undefined (NaN) scaled row,
not an all-zero row as the claim states. -/
theorem c2_counterexample :
    nanSum (candRow [false] true) = 0 ∧
    scaleRow (candRow [false] true) = [none] ∧
    (none : Option ℚ) ≠ some 0 := by
  refine ⟨by simp [candRow, nanSum], ?_, by simp⟩
  simp [candRow, scaleRow, nanSum, scaleCell]

/-- Claim C3: the bad-day correction replaces each bad day's row by the
previous day's corrected row (the previous valid weight vector), or by the
all-zero row when no valid day exists yet, so every day has a fully defined
weight row; in particular a day on which every asset is illiquid is a bad
day and inherits the previous day's weight vector unchanged. -/
theorem c3_bad_day_correction (trend : ℕ → Bool) (liq : List (List Bool))
    (t : ℕ) :
    (normalizeWeights trend liq).length = liq.length ∧
    (t + 1 < liq.length → isGoodRow (rawRow trend liq (t + 1)) = false →
      (normalizeWeights trend liq).getD (t + 1) []
        = (normalizeWeights trend liq).getD t []) ∧
    (t < liq.length →
      (∀ s, s ≤ t → isGoodRow (rawRow trend liq s) = false) →
      (normalizeWeights trend liq).getD t []
        = List.replicate (liq.headD []).length 0) ∧
    (t + 1 < liq.length → liq.getD (t + 1) [] ≠ [] →
      (∀ b ∈ liq.getD (t + 1) [], b = false) →
      (normalizeWeights trend liq).getD (t + 1) []
        = (normalizeWeights trend liq).getD t []) := by
  refine ⟨normalizeWeights_length trend liq,
    fun ht hb => normalizeWeights_getD_bad trend liq t ht hb,
    fun ht hb => normalizeWeights_getD_allbad trend liq t ht hb,
    fun ht hne hall => normalizeWeights_getD_bad trend liq t ht
      (rawRow_allIlliquid_bad trend liq (t + 1) hne hall)⟩

/-- Claim C10: every weight the normalizer produces lies in `[0, 1]` — the
strategy never takes a short position — so on every day the sum of absolute
weights equals the plain sum of weights, and `bias = 1` on every day with
nonzero total weight. -/
theorem c10_long_only (trend : ℕ → Bool) (liq : List (List Bool)) :
    ∀ row ∈ normalizeWeights trend liq,
      (∀ x ∈ row, 0 ≤ x ∧ x ≤ 1) ∧
      absSum row = row.sum ∧
      (0 < row.sum → bias row = some 1) := by
  refine normalizeWeights_forall trend liq ?_ ?_
  · have hz : ∀ x ∈ List.replicate (liq.headD []).length (0 : ℚ), x = 0 :=
      fun x hx => List.eq_of_mem_replicate hx
    refine ⟨fun x hx => by rw [hz x hx]; norm_num, ?_, ?_⟩
    · rw [absSum_of_all_zero _ hz, List.sum_eq_zero hz]
    · intro hpos
      rw [List.sum_eq_zero hz] at hpos
      exact absurd hpos (lt_irrefl 0)
  · intro u hg
    obtain ⟨hbd, _⟩ := stripRow_rawRow_good_prop trend liq u hg
    have hnn : ∀ x ∈ stripRow (rawRow trend liq u), 0 ≤ x :=
      fun x hx => (hbd x hx).1
    exact ⟨hbd, absSum_of_nonneg _ hnn, fun hpos => bias_of_nonneg _ hnn hpos⟩

/-! ### Claims about the signal builder -/

/-- Claim C6: the advance/decline line is a running sum starting at 0,
incremented each day by the number of advancing assets minus the number of
declining assets; an asset with a missing close on either day is excluded
from both counts; and a day with 2 advancing and 1 declining asset increases
the line by exactly 1. -/
theorem c6_ad_line (close : List (List (Option ℚ))) (t : ℕ) :
    adlF close 0 = 0 ∧
    adlF close (t + 1) = adlF close t
      + (advCount (closeAt close t) (closeAt close (t + 1)) : ℚ)
      - (decCount (closeAt close t) (closeAt close (t + 1)) : ℚ) ∧
    (∀ c : Option ℚ, isAdv none c = false ∧ isDec none c = false ∧
      isAdv c none = false ∧ isDec c none = false) ∧
    (advCount [some 1, some 3, some 2] [some 2, some 4, some (1 / 2)] = 2 ∧
     decCount [some 1, some 3, some 2] [some 2, some 4, some (1 / 2)] = 1 ∧
     adlF [[some 1, some 3, some 2], [some 2, some 4, some (1 / 2)]] 1
       = adlF [[some 1, some 3, some 2], [some 2, some 4, some (1 / 2)]] 0
           + 1) := by
  refine ⟨rfl, rfl, ?_, ?_, ?_, ?_⟩
  · intro c
    refine ⟨rfl, rfl, ?_, ?_⟩ <;> cases c <;> rfl
  · simp [advCount, isAdv]
    norm_num
  · simp [decCount, isDec]
    norm_num
  · rw [adlF, adlF]
    have ha : advCount (closeAt [[some 1, some 3, some 2],
        [some 2, some 4, some (1 / 2)]] 0)
        (closeAt [[some 1, some 3, some 2], [some 2, some 4, some (1 / 2)]] 1)
        = 2 := by
      simp [closeAt, advCount, isAdv]
      norm_num
    have hd : decCount (closeAt [[some 1, some 3, some 2],
        [some 2, some 4, some (1 / 2)]] 0)
        (closeAt [[some 1, some 3, some 2], [some 2, some 4, some (1 / 2)]] 1)
        = 1 := by
      simp [closeAt, decCount, isDec]
      norm_num
    rw [ha, hd]
    norm_num [adlF]

/-- Claim C7: the smoothed signal is an exponential moving average of the
advance/decline line with span 110: seeded with `ema[0] = adl[0]`, and for
every later day `ema[t] = α·adl[t] + (1-α)·ema[t-1]` with
`α = 2/(span+1) = 2/111`. -/
theorem c7_ema_smoothing (x : ℕ → ℚ) (t : ℕ) :
    emaSpan 110 x 0 = x 0 ∧
    emaSpan 110 x (t + 1)
      = (2 / 111) * x (t + 1) + (1 - 2 / 111) * emaSpan 110 x t ∧
    (2 : ℚ) / ((110 : ℚ) + 1) = 2 / 111 := by
  refine ⟨rfl, ?_, by norm_num⟩
  unfold emaSpan
  rw [emaF]
  norm_num

/-- Claim C8: the momentum signal `change[t] = ema[t] - ema[t-13]` is
undefined (absent) for the first 13 days; the trend flag is `change > 0` on
defined days and false on every day where `change` is undefined; and a
false-flag day's masked candidate row is all-undefined — such days contribute
no allocation of their own (they become bad days handled by the carry-forward
correction, not flat-zero rows). -/
theorem c8_momentum_flag (e : ℕ → ℚ) (t : ℕ) (h : t < 13)
    (liqRow : List Bool) (hne : liqRow ≠ []) :
    changeF e 13 t = none ∧
    posTrendF (changeF e 13) t = false ∧
    (∀ s : ℕ, ∀ v : ℚ, changeF e 13 s = some v
      → posTrendF (changeF e 13) s = decide (0 < v)) ∧
    (∀ x ∈ candRow liqRow false, x = none) ∧
    isGoodRow (scaleRow (candRow liqRow false)) = false := by
  have h1 : changeF e 13 t = none := by simp [changeF, h]
  refine ⟨h1, by simp [posTrendF, h1], ?_, ?_, ?_⟩
  · intro s v hv
    simp [posTrendF, hv]
  · intro x hx
    rw [candRow] at hx
    rcases List.mem_map.mp hx with ⟨l, _, rfl⟩
    rfl
  · cases liqRow with
    | nil => exact absurd rfl hne
    | cons l ls => simp [candRow, scaleRow, scaleCell_none, isGoodRow]

/-! ### EMA monotonicity (used by the C1 counterexample) -/

theorem emaF_le_self (α : ℚ) (x : ℕ → ℚ) (hα1 : α ≤ 1) (n : ℕ)
    (hx : ∀ s, s < n → x s < x (s + 1)) :
    ∀ t, t ≤ n → emaF α x t ≤ x t := by
  intro t
  induction t with
  | zero => intro _; exact le_of_eq rfl
  | succ t ih =>
    intro htn
    have hle : emaF α x t ≤ x t := ih (Nat.le_of_succ_le htn)
    have hxt : x t < x (t + 1) := hx t (Nat.lt_of_succ_le htn)
    rw [emaF]
    nlinarith [mul_nonneg (sub_nonneg.mpr hα1)
      (sub_nonneg.mpr (le_trans hle hxt.le))]

theorem emaF_strict_step (α : ℚ) (x : ℕ → ℚ) (hα : 0 < α) (hα1 : α ≤ 1)
    (n : ℕ) (hx : ∀ s, s < n → x s < x (s + 1)) :
    ∀ t, t < n → emaF α x t < emaF α x (t + 1) := by
  intro t htn
  have hle : emaF α x t ≤ x t := emaF_le_self α x hα1 n hx t htn.le
  have hxt : x t < x (t + 1) := hx t htn
  rw [emaF]
  nlinarith [mul_pos hα (sub_pos.mpr (lt_of_le_of_lt hle hxt))]

theorem emaF_lt_of_lt (α : ℚ) (x : ℕ → ℚ) (hα : 0 < α) (hα1 : α ≤ 1) (n : ℕ)
    (hx : ∀ s, s < n → x s < x (s + 1)) :
    ∀ i j, i < j → j ≤ n → emaF α x i < emaF α x j := by
  intro i j
  induction j with
  | zero => intro hij _; exact absurd hij (Nat.not_lt_zero i)
  | succ j ih =>
    intro hij hjn
    have hstep : emaF α x j < emaF α x (j + 1) :=
      emaF_strict_step α x hα hα1 n hx j (Nat.lt_of_succ_le hjn)
    rcases Nat.lt_succ_iff_lt_or_eq.mp hij with hlt | heq
    · exact lt_trans (ih hlt (Nat.le_of_succ_le hjn)) hstep
    · exact heq ▸ hstep

/-! ### The concrete pipeline run behind the C1 counterexample -/

theorem cexClose_at (t : ℕ) (ht : t < 16) :
    closeAt cexClose t = [some ((t : ℚ) + 1)] := by
  rw [closeAt, cexClose, List.getD_eq_getElem?_getD, List.getElem?_map]
  have hr : (List.range 16)[t]? = some t := by simp [List.getElem?_range, ht]
  rw [hr]
  rfl

theorem cexLiq_at (t : ℕ) (ht : t < 16) :
    cexLiq.getD t [] = [decide (t < 15)] := by
  rw [cexLiq, List.getD_eq_getElem?_getD, List.getElem?_map]
  have hr : (List.range 16)[t]? = some t := by simp [List.getElem?_range, ht]
  rw [hr]
  rfl

theorem cexLiq_length : cexLiq.length = 16 := by
  simp [cexLiq]

theorem advCount_single (a b : ℚ) (h : a < b) :
    advCount [some a] [some b] = 1 := by
  simp [advCount, isAdv, h]

theorem decCount_single (a b : ℚ) (h : a < b) :
    decCount [some a] [some b] = 0 := by
  simp [decCount, isDec, not_lt_of_gt h]

theorem cex_adl_step (s : ℕ) (hs : s < 15) :
    adlF cexClose (s + 1) = adlF cexClose s + 1 := by
  have h0 : closeAt cexClose s = [some ((s : ℚ) + 1)] :=
    cexClose_at s (by omega)
  have h1 : closeAt cexClose (s + 1) = [some ((s : ℚ) + 2)] := by
    rw [cexClose_at (s + 1) (by omega)]
    push_cast
    ring_nf
  rw [adlF, h0, h1, advCount_single _ _ (by linarith),
    decCount_single _ _ (by linarith)]
  norm_num

theorem cex_adl_mono : ∀ s, s < 15 → adlF cexClose s < adlF cexClose (s + 1) := by
  intro s hs
  rw [cex_adl_step s hs]
  linarith

theorem cex_trend_true (t : ℕ) (h13 : 13 ≤ t) (h15 : t ≤ 15) :
    pipelineTrend cexClose t = true := by
  have hlt : ¬ t < 13 := by omega
  have hch : changeF (emaSpan 110 (adlF cexClose)) 13 t
      = some (emaSpan 110 (adlF cexClose) t
          - emaSpan 110 (adlF cexClose) (t - 13)) := by
    simp [changeF, hlt]
  have hmono : emaSpan 110 (adlF cexClose) (t - 13)
      < emaSpan 110 (adlF cexClose) t := by
    unfold emaSpan
    exact emaF_lt_of_lt _ (adlF cexClose) (by norm_num) (by norm_num) 15
      cex_adl_mono (t - 13) t (by omega) (by omega)
  simp only [pipelineTrend, posTrendF, hch]
  simpa using sub_pos.mpr hmono

theorem cex_row_good (u : ℕ) (hu : 13 ≤ u) (hu2 : u ≤ 14) :
    isGoodRow (rawRow (pipelineTrend cexClose) cexLiq u) = true ∧
    stripRow (rawRow (pipelineTrend cexClose) cexLiq u) = [1] := by
  have htr : pipelineTrend cexClose u = true := cex_trend_true u hu (by omega)
  have hlr : cexLiq.getD u [] = [true] := by
    rw [cexLiq_at u (by omega)]
    simp [show u < 15 by omega]
  rw [rawRow, hlr, htr]
  constructor <;>
    simp [candRow, scaleRow, nanSum, scaleCell, isGoodRow, stripRow]

theorem cex_row15_bad :
    isGoodRow (rawRow (pipelineTrend cexClose) cexLiq 15) = false := by
  have htr : pipelineTrend cexClose 15 = true :=
    cex_trend_true 15 (by omega) (by omega)
  have hlr : cexLiq.getD 15 [] = [false] := by
    rw [cexLiq_at 15 (by omega)]
    simp
  rw [rawRow, hlr, htr]
  simp [candRow, scaleRow, nanSum, scaleCell, isGoodRow]

/-- Claim C1 counterexample: running the notebook pipeline on a concrete
market — one asset whose close strictly rises for 16 days (so the trend flag
is positive from day 13 on) and which is liquid on days 0–14 but illiquid on
day 15 — the bad-day correction carries the weight 1 forward to day 15, an
asset-day with `is_liquid = 0`.  The claim that every asset-day with
`is_liquid = 0` has weight exactly 0 is therefore false. -/
theorem c1_counterexample :
    (cexLiq.getD 15 []).getD 0 true = false ∧
    getW (pipelineWeights cexClose cexLiq) 15 0 = 1 ∧ (1 : ℚ) ≠ 0 := by
  refine ⟨?_, ?_, by norm_num⟩
  · rw [cexLiq_at 15 (by omega)]
    simp
  · have h14 : (normalizeWeights (pipelineTrend cexClose) cexLiq).getD 14 []
        = [1] := by
      obtain ⟨hg, hst⟩ := cex_row_good 14 (by omega) (by omega)
      rw [normalizeWeights_getD_good _ _ 14 (by rw [cexLiq_length]; omega) hg,
        hst]
    have h15 : (normalizeWeights (pipelineTrend cexClose) cexLiq).getD 15 []
        = [1] := by
      rw [show (15 : ℕ) = 14 + 1 from rfl,
        normalizeWeights_getD_bad _ _ 14 (by rw [cexLiq_length]; omega)
          cex_row15_bad]
      exact h14
    rw [pipelineWeights] at *
    rw [getW, h15]
    rfl

/-! ### Helper lemmas: performance engine -/

theorem le_runMax (e : ℕ → ℚ) (t : ℕ) : e t ≤ runMax e t := by
  cases t with
  | zero => exact le_of_eq rfl
  | succ t => exact le_max_right _ _

theorem first_le_runMax (e : ℕ → ℚ) (t : ℕ) : e 0 ≤ runMax e t := by
  induction t with
  | zero => exact le_of_eq rfl
  | succ t ih => exact le_trans ih (le_max_left _ _)

theorem equity_runMax_pos (rr : ℕ → ℚ) (t : ℕ) :
    0 < runMax (equity rr) t := by
  have h1 : equity rr 0 = 1 := rfl
  have := first_le_runMax (equity rr) t
  rw [h1] at this
  linarith

theorem minSeries_le (u : ℕ → ℚ) (n : ℕ) :
    ∀ s, s ≤ n → minSeries u n ≤ u s := by
  induction n with
  | zero =>
    intro s hs
    rw [Nat.le_zero.mp hs]
    exact le_of_eq rfl
  | succ n ih =>
    intro s hs
    rcases Nat.lt_succ_iff_lt_or_eq.mp (Nat.lt_succ_of_le hs) with h | h
    · exact le_trans (min_le_left _ _) (ih s (Nat.lt_succ_iff.mp h))
    · rw [h]
      exact min_le_right _ _

theorem minSeries_mem (u : ℕ → ℚ) (n : ℕ) :
    ∃ s, s ≤ n ∧ minSeries u n = u s := by
  induction n with
  | zero => exact ⟨0, le_refl 0, rfl⟩
  | succ n ih =>
    rcases ih with ⟨s, hs, hmin⟩
    rcases le_total (minSeries u n) (u (n + 1)) with h | h
    · exact ⟨s, le_trans hs (Nat.le_succ n), by rw [minSeries, min_eq_left h, hmin]⟩
    · exact ⟨n + 1, le_refl _, by rw [minSeries, min_eq_right h]⟩

/-! ### Claims about the performance engine -/

/-- Claim C4: for every day `t+1` the relative return is the sum over assets
of the previous day's weight times the close-price relative change, the first
day's return is 0, and equity compounds from 1 by `1 + relative_return`;
in the concrete single-asset scenario with weight 1 and a doubling price,
`relative_return[2] = 1` and `equity[2] = 2`. -/
theorem c4_relative_return_equity (close : List (List (Option ℚ)))
    (w : List (List ℚ)) (A t : ℕ) (p0 p1 : ℕ → ℚ)
    (hc0 : ∀ a, a < A → getClose close t a = some (p0 a))
    (hc1 : ∀ a, a < A → getClose close (t + 1) a = some (p1 a))
    (hpos : ∀ a, a < A → p0 a ≠ 0) :
    relRet close w A 0 = 0 ∧
    relRet close w A (t + 1)
      = ((List.range A).map (fun a => getW w t a * (p1 a / p0 a - 1))).sum ∧
    equity (relRet close w A) 0 = 1 ∧
    (∀ u : ℕ, equity (relRet close w A) (u + 1)
      = equity (relRet close w A) u * (1 + relRet close w A (u + 1))) ∧
    (relRet [[some 1], [some 1], [some 2]] [[1], [1], [1]] 1 2 = 1 ∧
     equity (relRet [[some 1], [some 1], [some 2]] [[1], [1], [1]] 1) 2
       = 2) := by
  refine ⟨rfl, ?_, rfl, fun u => rfl, ?_, ?_⟩
  · rw [relRet]
    refine congrArg List.sum (List.map_congr_left ?_)
    intro a ha
    have haA : a < A := List.mem_range.mp ha
    rw [hc0 a haA, hc1 a haA, cellRet, if_neg (hpos a haA)]
  · norm_num [relRet, cellRet, getW, getClose, List.range_succ,
      List.range_zero, List.getD_cons_zero, List.getD_cons_succ]
  · norm_num [equity, relRet, cellRet, getW, getClose, List.range_succ,
      List.range_zero, List.getD_cons_zero, List.getD_cons_succ]

/-- Claim C5: underwater is equity over its running maximum minus 1, is never
positive, vanishes exactly at running peaks, and the maximum drawdown is
exactly the minimum of the underwater series over the whole run. -/
theorem c5_underwater_drawdown (rr : ℕ → ℚ) (t n : ℕ) :
    underwater rr t = equity rr t / runMax (equity rr) t - 1 ∧
    underwater rr t ≤ 0 ∧
    (underwater rr t = 0 ↔ equity rr t = runMax (equity rr) t) ∧
    maxDrawdown rr n = minSeries (underwater rr) n ∧
    (∀ s, s ≤ n → maxDrawdown rr n ≤ underwater rr s) ∧
    (∃ s, s ≤ n ∧ maxDrawdown rr n = underwater rr s) := by
  have hpos := equity_runMax_pos rr t
  refine ⟨rfl, ?_, ?_, rfl, minSeries_le _ n, minSeries_mem _ n⟩
  · rw [underwater, sub_nonpos]
    exact (div_le_one hpos).mpr (le_runMax _ t)
  · rw [underwater, sub_eq_zero]
    exact div_eq_one_iff_eq (ne_of_gt hpos)

/-- Claim C9: days with fewer than the full 756-day rolling window of history
report mean return, volatility, Sharpe ratio and average turnover as the
explicit undefined marker `none`, which is distinct from `some 0`; once the
window is full these fields (Sharpe aside, which also needs nonzero
volatility) are defined values, so the undefined marker does not leak into
full-window days. -/
theorem c9_rolling_window_undefined (rr : ℕ → ℚ) (w : List (List ℚ))
    (A t : ℕ) :
    (t + 1 < 756 →
      meanReturn rr t = none ∧ volatilityF rr t = none ∧
      sharpeF rr t = none ∧ avgTurnover w A t = none) ∧
    (∀ q : ℚ, (none : Option ℚ) ≠ some q) ∧
    (756 ≤ t + 1 →
      (∃ m, meanReturn rr t = some m) ∧
      (∃ v, volatilityF rr t = some v) ∧
      (∃ u, avgTurnover w A t = some u)) := by
  refine ⟨?_, fun q => by simp, ?_⟩
  · intro h
    have hm : meanReturn rr t = none := by simp [meanReturn, rollingField, h]
    exact ⟨hm, by simp [volatilityF, rollingField, h], by simp [sharpeF, hm],
      by simp [avgTurnover, rollingField, h]⟩
  · intro h
    have h' : ¬ t + 1 < 756 := not_lt.mpr h
    exact ⟨⟨meanFn (windowVals rr 756 t),
        by simp [meanReturn, rollingField, h']⟩,
      ⟨varFn (windowVals rr 756 t),
        by simp [volatilityF, rollingField, h']⟩,
      ⟨meanFn (windowVals (dayTurnover w A) 756 t),
        by simp [avgTurnover, rollingField, h']⟩⟩

/-! ### Witnesses: the claim theorems applied at concrete inputs -/

/-- Witness for C1: concrete one-day input with a defined raw row, an
illiquid first asset and a liquid second one. -/
theorem c1_witness :
    (0 : ℕ) < ([[false, true]] : List (List Bool)).length ∧
    isGoodRow (rawRow (fun _ => true) [[false, true]] 0) = true ∧
    (([[false, true]] : List (List Bool)).getD 0 []).getD 0 true = false ∧
    getW (normalizeWeights (fun _ => true) [[false, true]]) 0 0 = 0 := by
  have hgood : isGoodRow (rawRow (fun _ => true) [[false, true]] 0) = true := by
    simp [rawRow, candRow, scaleRow, nanSum, scaleCell, isGoodRow]
  refine ⟨by decide, hgood, rfl, ?_⟩
  exact (c1_leverage_and_liquidity (fun _ => true) [[false, true]] 0 0).2
    (by decide) hgood rfl

/-- Witness for C2: a singleton candidate row with a positive sum. -/
theorem c2_witness :
    (∀ x ∈ [some (1 : ℚ)], ∀ v : ℚ, x = some v → 0 ≤ v) ∧
    0 < nanSum [some (1 : ℚ)] ∧
    nanSum (scaleRow [some (1 : ℚ)]) = 1 := by
  have hnn : ∀ x ∈ [some (1 : ℚ)], ∀ v : ℚ, x = some v → 0 ≤ v := by
    intro x hx v hv
    rw [List.mem_singleton] at hx
    rw [hx] at hv
    have h1 : (1 : ℚ) = v := by injection hv
    rw [← h1]
    exact zero_le_one
  have hpos : 0 < nanSum [some (1 : ℚ)] := by simp [nanSum]
  exact ⟨hnn, hpos, ((c2_scaling_step [some 1] hnn).1 hpos).2.1⟩

/-- Witness for C3: a two-day input whose second row is bad (sole asset
illiquid), so the correction carries day 0's row forward. -/
theorem c3_witness :
    0 + 1 < ([[false], [false]] : List (List Bool)).length ∧
    isGoodRow (rawRow (fun _ => true) [[false], [false]] (0 + 1)) = false ∧
    (normalizeWeights (fun _ => true) [[false], [false]]).getD (0 + 1) []
      = (normalizeWeights (fun _ => true) [[false], [false]]).getD 0 [] := by
  have hbad : isGoodRow (rawRow (fun _ => true) [[false], [false]] (0 + 1))
      = false := by
    simp [rawRow, candRow, scaleRow, nanSum, scaleCell, isGoodRow]
  refine ⟨by decide, hbad, ?_⟩
  exact (c3_bad_day_correction (fun _ => true) [[false], [false]] 0).2.1
    (by decide) hbad

/-- Witness for C4: the single-asset doubling-price scenario. -/
theorem c4_witness :
    (∀ a, a < 1 → getClose [[some (1 : ℚ)], [some 1], [some 2]] 1 a = some 1) ∧
    (∀ a, a < 1 → getClose [[some (1 : ℚ)], [some 1], [some 2]] 2 a = some 2) ∧
    ((1 : ℚ) ≠ 0) ∧
    relRet [[some 1], [some 1], [some 2]] [[1], [1], [1]] 1 2 = 1 ∧
    equity (relRet [[some 1], [some 1], [some 2]] [[1], [1], [1]] 1) 2 = 2 := by
  have hc0 : ∀ a, a < 1
      → getClose [[some (1 : ℚ)], [some 1], [some 2]] 1 a = some 1 := by
    intro a ha
    rw [Nat.lt_one_iff.mp ha]
    rfl
  have hc1 : ∀ a, a < 1
      → getClose [[some (1 : ℚ)], [some 1], [some 2]] 2 a = some 2 := by
    intro a ha
    rw [Nat.lt_one_iff.mp ha]
    rfl
  have hmain := c4_relative_return_equity [[some 1], [some 1], [some 2]]
    [[1], [1], [1]] 1 1 (fun _ => 1) (fun _ => 2) hc0 hc1
    (fun _ _ => one_ne_zero)
  exact ⟨hc0, hc1, one_ne_zero, hmain.2.2.2.2.1, hmain.2.2.2.2.2⟩

/-- Witness for C5: the drawdown bound applied at day 0 of the zero-return
run. -/
theorem c5_witness :
    (0 : ℕ) ≤ 0 ∧
    maxDrawdown (fun _ => (0 : ℚ)) 0 ≤ underwater (fun _ => (0 : ℚ)) 0 :=
  ⟨le_refl 0,
    (c5_underwater_drawdown (fun _ => (0 : ℚ)) 0 0).2.2.2.2.1 0 (le_refl 0)⟩

/-- Witness for C8: day 5 is inside the 13-day lag window. -/
theorem c8_witness :
    (5 : ℕ) < 13 ∧ ([true] : List Bool) ≠ [] ∧
    changeF (fun _ => (0 : ℚ)) 13 5 = none ∧
    posTrendF (changeF (fun _ => (0 : ℚ)) 13) 5 = false := by
  refine ⟨by decide, by decide, ?_, ?_⟩
  · exact (c8_momentum_flag (fun _ => (0 : ℚ)) 5 (by decide) [true]
      (by decide)).1
  · exact (c8_momentum_flag (fun _ => (0 : ℚ)) 5 (by decide) [true]
      (by decide)).2.1

/-- Witness for C9: day 0 is before the window fills; day 755 is the first
full-window day. -/
theorem c9_witness :
    0 + 1 < 756 ∧ 756 ≤ 755 + 1 ∧
    meanReturn (fun _ => (0 : ℚ)) 0 = none ∧
    (∃ m, meanReturn (fun _ => (0 : ℚ)) 755 = some m) := by
  refine ⟨by decide, by decide, ?_, ?_⟩
  · exact ((c9_rolling_window_undefined (fun _ => (0 : ℚ)) [] 0 0).1
      (by decide)).1
  · exact ((c9_rolling_window_undefined (fun _ => (0 : ℚ)) [] 0 755).2.2
      (by decide)).1

/-- Witness for C10: the normalized weight row of a one-asset liquid day. -/
theorem c10_witness :
    ([1] : List ℚ) ∈ normalizeWeights (fun _ => true) [[true]] ∧
    (0 : ℚ) < ([(1 : ℚ)]).sum ∧
    bias [(1 : ℚ)] = some 1 := by
  have hW : normalizeWeights (fun _ => true) [[true]] = [[1]] := by
    simp [normalizeWeights, rawRows, rawRow, candRow, scaleRow, nanSum,
      scaleCell, isGoodRow, stripRow, dropBadDays, List.range_succ,
      List.range_zero]
  have hmem : ([1] : List ℚ) ∈ normalizeWeights (fun _ => true) [[true]] := by
    rw [hW]
    exact List.mem_singleton.mpr rfl
  have hpos : (0 : ℚ) < ([(1 : ℚ)]).sum := by simp
  exact ⟨hmem, hpos, (c10_long_only (fun _ => true) [[true]] [1] hmem).2.2 hpos⟩

end BnhAdl
